import Mathlib

/-!
Shallow embedding of the job-application pipeline:
salary parsing and posting filter (src/filter.py), bookkeeping store
(src/utils/storage.py), apply orchestrator (src/apply.py) and the
cross-keyword search aggregation (src/platforms/base.py).

Dictionaries backed by JSON files are modelled as association lists that
keep Python dict insertion-order semantics (update-in-place on existing
key, append on new key); Python sets are lists used through membership
only.  Wall-clock timestamps (`datetime.now()`) are outside the model:
the local calendar date is passed explicitly as a `today : String`
argument, and the `apply_time` field of a stored record is omitted.
-/

namespace JobsAuto

/-- A job posting, as the dict consumed by the filter and the applier
(fields read via `job.get(...)` in the source). -/
structure Job where
  job_id : String
  job_name : String
  company : String
  description : String
  salary : String
  hr_name : String
  url : String
deriving DecidableEq, Repr

/-- The `filter` section of the configuration; `none` models an absent key,
read through `.get(key, default)`. -/
structure FilterConfig where
  company_keyword_blacklist : Option (List String) := none
  company_blacklist : Option (List String) := none
  must_include : Option (List String) := none
  must_exclude : Option (List String) := none
  min_salary_start : Option Nat := none
  min_salary_max : Option Nat := none

/-- The `apply` section of the configuration. -/
structure ApplyConfig where
  batch_limit : Option Nat := none
  daily_limit : Option Nat := none
  interval_min : Option Nat := none
  interval_max : Option Nat := none

/-! ## Salary parsing (`JobFilter._parse_salary`) -/

/-- The cleaning line of `_parse_salary`:
`salary_str.lower().replace('k', '').replace('·', '-').replace(' ', '')`. -/
def cleanSalary (s : String) : List Char :=
  ((((s.data.map Char.toLower).filter (fun c => c ≠ 'k')).map
      (fun c => if c = '·' then '-' else c)).filter (fun c => c ≠ ' '))

/-- Numeric value of a digit run (`int(...)` on a `\d+` group). -/
def natOfDigits (l : List Char) : Nat :=
  l.foldl (fun n c => n * 10 + (c.toNat - 48)) 0

/-- Leftmost match of the regex `(\d+)-(\d+)` (`re.search`): at each start
position a maximal digit run must be followed by `-` and another digit run;
shrinking the first greedy run can never expose the required `-`, so
backtracking is vacuous and leftmost-match search advances one character
at a time. -/
def findRangeMatch : List Char → Option (Nat × Nat)
  | [] => none
  | c :: rest =>
    if c.isDigit then
      match (c :: rest).dropWhile Char.isDigit with
      | '-' :: rest2 =>
        let run2 := rest2.takeWhile Char.isDigit
        if run2.isEmpty then findRangeMatch rest
        else some (natOfDigits ((c :: rest).takeWhile Char.isDigit), natOfDigits run2)
      | _ => findRangeMatch rest
    else findRangeMatch rest

/-- Leftmost match of the regex `(\d+)` (`re.search`). -/
def findSingleMatch : List Char → Option Nat
  | [] => none
  | c :: rest =>
    if c.isDigit then some (natOfDigits ((c :: rest).takeWhile Char.isDigit))
    else findSingleMatch rest

/-- `JobFilter._parse_salary`: clean the text, try a `low-high` pair, then a
single number, else `(None, None)` (empty input short-circuits to that). -/
def parse_salary (s : String) : Option Nat × Option Nat :=
  if s.isEmpty then (none, none)
  else
    match findRangeMatch (cleanSalary s) with
    | some (lo, hi) => (some lo, some hi)
    | none =>
      match findSingleMatch (cleanSalary s) with
      | some n => (some n, some n)
      | none => (none, none)

/-- `JobFilter._check_salary_range`: unparseable salary passes (fail-open);
otherwise reject when the low end is under `min_salary_start` (default 20)
or the high end is under `min_salary_max` (default 35). -/
def check_salary_range (cfg : FilterConfig) (job : Job) : Bool :=
  match parse_salary job.salary with
  | (some min_salary, some max_salary) =>
    let min_start := cfg.min_salary_start.getD 20
    let min_max := cfg.min_salary_max.getD 35
    if min_salary < min_start then false
    else if max_salary < min_max then false
    else true
  | _ => true

/-! ## Bookkeeping store (`Storage`) -/

/-- The `job_info` dict passed to `add_applied_job` by the applier. -/
structure JobInfo where
  job_name : String
  company : String
  hr_name : String
  salary : String
  url : String
deriving DecidableEq, Repr

/-- A stored applied-job entry: the info plus the `status` field the store
adds (`'applied'`); the wall-clock `apply_time` field is outside the model. -/
structure AppliedRecord where
  info : JobInfo
  status : String
deriving DecidableEq, Repr

/-- Store state: the four JSON documents plus the two lazily-built
in-memory caches (`None` when not yet loaded). -/
structure Storage where
  applied_jobs : List (String × AppliedRecord)
  applied_ids_cache : Option (List String)
  blacklist_companies : List String
  blacklist_hr_ids : List String
  blacklist_cache : Option (List String × List String)
  hr_records : List String
  daily_stats : List (String × Nat)

/-- Keys of the durable applied-jobs mapping. -/
def appliedKeys (s : Storage) : List String :=
  s.applied_jobs.map Prod.fst

/-- Python dict assignment `d[k] = v`: overwrite in place when the key is
present, append otherwise. -/
def dictSet {α : Type} (l : List (String × α)) (k : String) (v : α) :
    List (String × α) :=
  if l.any (fun p => p.1 == k) then
    l.map (fun p => if p.1 = k then (k, v) else p)
  else l ++ [(k, v)]

/-- Python `set.add`: no-op on a present element. -/
def setAdd (l : List String) (x : String) : List String :=
  if l.contains x then l else l ++ [x]

/-- `Storage._load_applied_job_ids`: populate the id cache from the durable
mapping on first use, then reuse it. -/
def load_applied_job_ids (s : Storage) : List String × Storage :=
  match s.applied_ids_cache with
  | some ids => (ids, s)
  | none => (appliedKeys s, { s with applied_ids_cache := some (appliedKeys s) })

/-- `Storage.is_job_applied`: membership in the (lazily loaded) id cache. -/
def is_job_applied (s : Storage) (job_id : String) : Bool × Storage :=
  let (ids, s1) := load_applied_job_ids s
  (ids.contains job_id, s1)

/-- `Storage.add_applied_job`: upsert the record (with `status = 'applied'`)
into the durable mapping and, when the id cache is loaded, add the id to it. -/
def add_applied_job (s : Storage) (job_id : String) (job_info : JobInfo) :
    Storage :=
  { s with
    applied_jobs := dictSet s.applied_jobs job_id ⟨job_info, "applied"⟩
    applied_ids_cache := s.applied_ids_cache.map (fun ids => setAdd ids job_id) }

/-- `Storage._load_blacklist_cache` (as a value: companies set, hr set). -/
def blacklistSets (s : Storage) : List String × List String :=
  match s.blacklist_cache with
  | some bl => bl
  | none => (s.blacklist_companies, s.blacklist_hr_ids)

/-- `Storage.is_company_blacklisted` (value part; the cache fill does not
change any membership answer). -/
def is_company_blacklisted (s : Storage) (company : String) : Bool :=
  (blacklistSets s).1.contains company

/-- `Storage.get_hr_records` (keys of the HR-records mapping; the filter
only tests key membership). -/
def get_hr_records (s : Storage) : List String :=
  s.hr_records

/-- `Storage.get_today_apply_count`:
`stats.get(today, {}).get('apply_count', 0)`. -/
def get_today_apply_count (s : Storage) (today : String) : Nat :=
  match s.daily_stats.find? (fun p => p.1 == today) with
  | some p => p.2
  | none => 0

/-- `Storage.increment_today_apply_count`: initialize an unseen date to 0,
increment it, persist, and return the post-increment value. -/
def increment_today_apply_count (s : Storage) (today : String) :
    Nat × Storage :=
  let stats :=
    if s.daily_stats.any (fun p => p.1 == today) then s.daily_stats
    else s.daily_stats ++ [(today, 0)]
  let stats2 := stats.map (fun p => if p.1 = today then (p.1, p.2 + 1) else p)
  let s1 := { s with daily_stats := stats2 }
  (get_today_apply_count s1 today, s1)

/-! ## Posting filter (`JobFilter._should_apply`, `sort_by_priority`) -/

/-- Python substring test `needle in hay` on character lists. -/
def hasSubstr (needle : List Char) : List Char → Bool
  | [] => needle.isEmpty
  | c :: rest => needle.isPrefixOf (c :: rest) || hasSubstr needle rest

/-- `str.lower()` on character lists. -/
def lowerChars (l : List Char) : List Char :=
  l.map Char.toLower

/-- `JobFilter._should_apply`: the short-circuiting clause chain in source
order — applied id, persistent company blacklist, company-name keyword
blacklist, configured company blacklist, salary range, must-include
keywords, must-exclude keywords. -/
def should_apply (cfg : FilterConfig) (s : Storage) (job : Job) : Bool :=
  if (is_job_applied s job.job_id).1 then false
  else if is_company_blacklisted s job.company then false
  else if (cfg.company_keyword_blacklist.getD []).any
      (fun kw => hasSubstr kw.data job.company.data) then false
  else if (cfg.company_blacklist.getD []).contains job.company then false
  else if !(check_salary_range cfg job) then false
  else
    let text := lowerChars ((job.job_name ++ " " ++ job.description).data)
    if (cfg.must_include.getD []).any
        (fun kw => !(hasSubstr (lowerChars kw.data) text)) then false
    else if (cfg.must_exclude.getD []).any
        (fun kw => hasSubstr (lowerChars kw.data) text) then false
    else true

/-- `priority_score` inside `sort_by_priority`: +10 when the posting's HR
has no record in the store. -/
def priority_score (s : Storage) (job : Job) : Nat :=
  if (get_hr_records s).contains job.hr_name then 0 else 10

/-- Stable insertion (descending): `x` goes before the first element whose
score is not above `f x`, so among equal scores the earlier input stays
first. -/
def insertDescBy (f : Job → Nat) (x : Job) : List Job → List Job
  | [] => [x]
  | y :: ys => if f y ≤ f x then x :: y :: ys else y :: insertDescBy f x ys

/-- Stable descending sort (the semantics of Python
`sorted(jobs, key=f, reverse=True)`). -/
def sortDescBy (f : Job → Nat) : List Job → List Job
  | [] => []
  | x :: xs => insertDescBy f x (sortDescBy f xs)

/-- `JobFilter.sort_by_priority`. -/
def sort_by_priority (s : Storage) (jobs : List Job) : List Job :=
  sortDescBy (priority_score s) jobs

/-! ## Apply orchestrator (`JobApplier.apply_jobs`) -/

/-- Batch counters returned by `apply_jobs`. -/
structure Stats where
  success : Nat
  failed : Nat
  skipped : Nat
deriving DecidableEq, Repr

/-- Result of one `_apply_single_job` call: returned `True`, returned
`False`, or raised (caught by the loop). -/
inductive ApplyOutcome
  | success
  | failure
  | error
deriving DecidableEq, Repr

/-- The `job_info` dict the applier persists on success. -/
def jobInfoOf (job : Job) : JobInfo :=
  ⟨job.job_name, job.company, job.hr_name, job.salary, job.url⟩

/-- One iteration of the per-posting loop of `apply_jobs`: on success,
count it, persist the record and bump today's counter; on a `False`
return or an exception, count a failure and leave the store untouched. -/
def apply_step (outcome : Job → ApplyOutcome) (today : String)
    (acc : Stats × Storage) (job : Job) : Stats × Storage :=
  match outcome job with
  | .success =>
    let s1 := add_applied_job acc.2 job.job_id (jobInfoOf job)
    let s2 := (increment_today_apply_count s1 today).2
    ({ acc.1 with success := acc.1.success + 1 }, s2)
  | .failure => ({ acc.1 with failed := acc.1.failed + 1 }, acc.2)
  | .error => ({ acc.1 with failed := acc.1.failed + 1 }, acc.2)

/-- `JobApplier.apply_jobs`: hard-stop on the daily quota, otherwise fold
the per-posting loop over the first `min(batch_limit, daily_limit -
today_count)` postings. -/
def apply_jobs (outcome : Job → ApplyOutcome) (cfg : ApplyConfig)
    (today : String) (s : Storage) (jobs : List Job) : Stats × Storage :=
  let batch_limit := cfg.batch_limit.getD 20
  let daily_limit := cfg.daily_limit.getD 50
  let today_count := get_today_apply_count s today
  if daily_limit ≤ today_count then (⟨0, 0, 0⟩, s)
  else
    let remaining_batch := min batch_limit (daily_limit - today_count)
    (jobs.take remaining_batch).foldl (apply_step outcome today) (⟨0, 0, 0⟩, s)

/-- Observable events of one `apply_jobs` run. -/
inductive ApplyEvent
  | attempt (job_id : String)
  | delay
deriving DecidableEq, Repr

/-- Event trace of `apply_jobs`: an `attempt` where the loop body calls
`_apply_single_job` and a `delay` where it calls `_random_delay` — the
delay sits after the try/except, still inside the loop body, so it runs
on every iteration whatever the outcome. -/
def apply_jobs_trace (cfg : ApplyConfig) (today : String) (s : Storage)
    (jobs : List Job) : List ApplyEvent :=
  let batch_limit := cfg.batch_limit.getD 20
  let daily_limit := cfg.daily_limit.getD 50
  let today_count := get_today_apply_count s today
  if daily_limit ≤ today_count then []
  else
    let remaining_batch := min batch_limit (daily_limit - today_count)
    ((jobs.take remaining_batch).map
      (fun job => [ApplyEvent.attempt job.job_id, ApplyEvent.delay])).flatten

/-! ## Cross-keyword search (`BasePlatform.search_all_keywords`) -/

/-- The inner loop of `search_all_keywords` over one keyword's results:
append each job whose id has not been seen, and remember its id. -/
def collectJobs : List Job → List Job × List String → List Job × List String
  | [], st => st
  | j :: js, (acc, seen) =>
    if seen.contains j.job_id then collectJobs js (acc, seen)
    else collectJobs js (acc ++ [j], seen ++ [j.job_id])

/-- `BasePlatform.search_all_keywords`: fold the keywords through
`collectJobs`, starting from an empty accumulator and seen-set
(`search_jobs` is the per-keyword adapter call, passed as a function). -/
def search_all_keywords (searchFn : String → List Job)
    (keywords : List String) : List Job :=
  (keywords.foldl (fun st kw => collectJobs (searchFn kw) st) ([], [])).1

/-! ## Auxiliary predicates and fixtures -/

/-- The applied-id cache, when loaded, answers membership exactly as the
durable applied-jobs keys do (the cache/disk agreement invariant). -/
def AppliedCacheOK (s : Storage) : Prop :=
  ∀ ids, s.applied_ids_cache = some ids →
    ∀ x, ids.contains x = (appliedKeys s).contains x

/-- The blacklist cache, when loaded, answers company membership exactly as
the durable blacklist does. -/
def BlacklistCacheOK (s : Storage) : Prop :=
  ∀ bl, s.blacklist_cache = some bl →
    ∀ x, bl.1.contains x = s.blacklist_companies.contains x

/-- Number of entries for a given id in the applied-jobs mapping. -/
def countKey (s : Storage) (id : String) : Nat :=
  (appliedKeys s).count id

/-- Whether an event is a per-posting apply attempt. -/
def isAttempt : ApplyEvent → Bool
  | .attempt _ => true
  | .delay => false

/-- A fresh store: empty files, no caches loaded. -/
def emptyStore : Storage :=
  ⟨[], none, [], [], none, [], []⟩

/-- A sample posting used to instantiate universally quantified theorems. -/
def sampleJob : Job :=
  ⟨"id1", "python dev", "acme", "desc", "20-50K", "hr1", "https"⟩

/-- A store whose counter for "2026-01-01" already sits at the default
daily limit. -/
def quotaStore : Storage :=
  ⟨[], none, [], [], none, [], [("2026-01-01", 50)]⟩

/-- A second sample posting, with an uncontacted HR. -/
def sampleJob2 : Job :=
  ⟨"id2", "backend dev", "globex", "desc2", "25-40K", "hr2", "https2"⟩

/-- A store that has an HR-contact record for "hr1" only. -/
def hrStore : Storage :=
  ⟨[], none, [], [], none, ["hr1"], []⟩

/-- A two-keyword search in which both keywords return the first sample
posting (so its id is duplicated across keywords). -/
def searchResults : String → List Job :=
  fun k => if k = "A" then [sampleJob] else [sampleJob, sampleJob2]

/-! ## Character-level lemmas for salary parsing -/

/-- `Char.toLower` never turns a non-digit into a digit (nor a digit into a
non-digit): the lowered range 97–122 and the digit range 48–57 are disjoint. -/
theorem isDigit_toLower (c : Char) : (c.toLower).isDigit = c.isDigit := by
  unfold Char.toLower
  by_cases h : c.toNat ≥ 65 ∧ c.toNat ≤ 90
  · rw [if_pos h]
    have hv : (c.toNat + 32).isValidChar := by left; omega
    have ht : (Char.ofNat (c.toNat + 32)).toNat = c.toNat + 32 := by
      unfold Char.ofNat
      rw [dif_pos hv]
      rfl
    have hd1 : (Char.ofNat (c.toNat + 32)).isDigit = false := by
      simp only [Char.isDigit, Bool.and_eq_false_iff, decide_eq_false_iff_not, not_le,
        UInt32.lt_def, BitVec.lt_def, UInt32.le_def, BitVec.le_def]
      right
      have h57 : (57 : UInt32).toBitVec.toNat = 57 := rfl
      have hx : (Char.ofNat (c.toNat + 32)).val.toBitVec.toNat = c.toNat + 32 := ht
      omega
    have hd2 : c.isDigit = false := by
      simp only [Char.isDigit, Bool.and_eq_false_iff, decide_eq_false_iff_not, not_le,
        UInt32.lt_def, BitVec.lt_def, UInt32.le_def, BitVec.le_def]
      right
      have h57 : (57 : UInt32).toBitVec.toNat = 57 := rfl
      have hx : c.val.toBitVec.toNat = c.toNat := rfl
      omega
    rw [hd1, hd2]
  · rw [if_neg h]

/-- Cleaning a digit-free salary string yields a digit-free character list:
lower-casing preserves non-digits and the introduced `-` is not a digit. -/
theorem cleanSalary_no_digit {s : String} (hs : ∀ c ∈ s.data, c.isDigit = false) :
    ∀ c ∈ cleanSalary s, c.isDigit = false := by
  intro c hc
  unfold cleanSalary at hc
  rw [List.mem_filter] at hc
  obtain ⟨hc, -⟩ := hc
  rw [List.mem_map] at hc
  obtain ⟨b, hb, rfl⟩ := hc
  rw [List.mem_filter] at hb
  obtain ⟨hb, -⟩ := hb
  rw [List.mem_map] at hb
  obtain ⟨a, ha, rfl⟩ := hb
  by_cases hdot : a.toLower = '·'
  · rw [if_pos hdot]; rfl
  · rw [if_neg hdot]
    rw [isDigit_toLower]
    exact hs a ha

/-- The `(\d+)-(\d+)` search fails on a digit-free character list. -/
theorem findRangeMatch_eq_none {l : List Char} (h : ∀ c ∈ l, c.isDigit = false) :
    findRangeMatch l = none := by
  induction l with
  | nil => rfl
  | cons c rest ih =>
    have hc : c.isDigit = false := h c (List.mem_cons_self c rest)
    simp only [findRangeMatch, hc, Bool.false_eq_true, if_false]
    exact ih fun x hx => h x (List.mem_cons_of_mem c hx)

/-- The `(\d+)` search fails on a digit-free character list. -/
theorem findSingleMatch_eq_none {l : List Char} (h : ∀ c ∈ l, c.isDigit = false) :
    findSingleMatch l = none := by
  induction l with
  | nil => rfl
  | cons c rest ih =>
    have hc : c.isDigit = false := h c (List.mem_cons_self c rest)
    simp only [findSingleMatch, hc, Bool.false_eq_true, if_false]
    exact ih fun x hx => h x (List.mem_cons_of_mem c hx)

/-- C2: `_parse_salary` maps "20-50K" to (20,50), "15-20k·13薪" to (15,20),
"30K" to (30,30), and any digit-free string (including "" and "面议") to
(None,None); a (None,None) result makes the salary clause pass (fail-open),
and a parsed pair (low,high) is admitted iff low ≥ `min_salary_start`
(default 20) and high ≥ `min_salary_max` (default 35). -/
theorem parse_salary_spec :
    parse_salary "20-50K" = (some 20, some 50) ∧
    parse_salary "15-20k·13薪" = (some 15, some 20) ∧
    parse_salary "30K" = (some 30, some 30) ∧
    parse_salary "" = (none, none) ∧
    parse_salary "面议" = (none, none) ∧
    (∀ s : String, (∀ c ∈ s.data, c.isDigit = false) → parse_salary s = (none, none)) ∧
    (∀ (cfg : FilterConfig) (job : Job),
      parse_salary job.salary = (none, none) → check_salary_range cfg job = true) ∧
    (∀ (cfg : FilterConfig) (job : Job) (lo hi : Nat),
      parse_salary job.salary = (some lo, some hi) →
      (check_salary_range cfg job = true ↔
        cfg.min_salary_start.getD 20 ≤ lo ∧ cfg.min_salary_max.getD 35 ≤ hi)) := by
  refine ⟨by decide, by decide, by decide, by decide, by decide, ?_, ?_, ?_⟩
  · intro s hs
    unfold parse_salary
    by_cases he : s.isEmpty
    · rw [if_pos he]
    · rw [if_neg he]
      rw [findRangeMatch_eq_none (cleanSalary_no_digit hs),
        findSingleMatch_eq_none (cleanSalary_no_digit hs)]
  · intro cfg job hp
    unfold check_salary_range
    rw [hp]
  · intro cfg job lo hi hp
    have hr : check_salary_range cfg job =
        (if lo < cfg.min_salary_start.getD 20 then false
         else if hi < cfg.min_salary_max.getD 35 then false else true) := by
      unfold check_salary_range
      rw [hp]
    rw [hr]
    constructor
    · intro h
      by_cases h1 : lo < cfg.min_salary_start.getD 20
      · rw [if_pos h1] at h; exact absurd h (by simp)
      · rw [if_neg h1] at h
        by_cases h2 : hi < cfg.min_salary_max.getD 35
        · rw [if_pos h2] at h; exact absurd h (by simp)
        · omega
    · intro ⟨h1, h2⟩
      rw [if_neg (by omega), if_neg (by omega)]

/-- Witness for C2 at concrete inputs: "面议" is digit-free hence parses to
(None,None), and a parsed "20-50K" is admitted under the default bounds. -/
theorem parse_salary_spec_witness :
    parse_salary "面议" = (none, none) ∧ check_salary_range {} sampleJob = true := by
  constructor
  · exact parse_salary_spec.2.2.2.2.2.1 "面议" (by decide)
  · exact (parse_salary_spec.2.2.2.2.2.2.2 {} sampleJob 20 50 (by decide)).mpr (by decide)

/-! ## Daily-stats lemmas -/

theorem find?_map_bump (m : List (String × Nat)) (today d : String) :
    (m.map (fun p => if p.1 = today then (p.1, p.2 + 1) else p)).find?
        (fun p => p.1 == d)
      = Option.map (fun p => if p.1 = today then (p.1, p.2 + 1) else p)
          (m.find? (fun p => p.1 == d)) := by
  rw [List.find?_map]
  have hpred : ((fun p : String × Nat => p.1 == d) ∘
        fun p => if p.1 = today then (p.1, p.2 + 1) else p)
      = fun p : String × Nat => p.1 == d := by
    funext p
    by_cases h : p.1 = today <;> simp [h, Function.comp]
  rw [hpred]

/-- Where `find?` lands on the daily-stats list after one increment of
`today`: the entry for `today` is bumped (or created at 1), every other
date's entry is untouched. -/
theorem daily_stats_find?_after (l : List (String × Nat)) (today d : String) :
    ((if l.any (fun p => p.1 == today) then l else l ++ [(today, 0)]).map
        (fun p => if p.1 = today then (p.1, p.2 + 1) else p)).find?
        (fun p => p.1 == d)
      = if d = today then
          (match l.find? (fun p => p.1 == today) with
            | some p => some (p.1, p.2 + 1)
            | none => some (today, 1))
        else l.find? (fun p => p.1 == d) := by
  by_cases ha : l.any (fun p => p.1 == today) = true
  · rw [if_pos ha, find?_map_bump]
    by_cases hd : d = today
    · subst hd
      rw [if_pos rfl]
      cases hf : l.find? (fun p => p.1 == d) with
      | some p =>
        have hp : p.1 = d := by
          have := List.find?_some hf
          simpa using this
        simp [hp]
      | none =>
        rcases List.any_eq_true.mp ha with ⟨x, hx, hx2⟩
        exact absurd hx2 (List.find?_eq_none.mp hf x hx)
    · rw [if_neg hd]
      cases hf : l.find? (fun p => p.1 == d) with
      | some p =>
        have hp : p.1 = d := by
          have := List.find?_some hf
          simpa using this
        have : ¬ p.1 = today := by rw [hp]; exact hd
        simp [this]
      | none => rfl
  · rw [if_neg ha, find?_map_bump, List.find?_append]
    have hforall : ∀ x ∈ l, ¬ ((fun p => p.1 == today) x = true) := by
      intro x hx
      intro hx2
      exact ha (List.any_eq_true.mpr ⟨x, hx, hx2⟩)
    by_cases hd : d = today
    · subst hd
      rw [List.find?_eq_none.mpr hforall, if_pos rfl]
      simp [List.find?, Option.or]
    · rw [if_neg hd]
      have hone : ([(today, (0 : Nat))].find? (fun p => p.1 == d)) = none := by
        have hne : (today == d) = false := by
          simp only [beq_eq_false_iff_ne, ne_eq]
          exact fun h => hd h.symm
        simp [List.find?, hne]
      rw [hone]
      cases hf : l.find? (fun p => p.1 == d) with
      | some p =>
        have hp : p.1 = d := by
          have := List.find?_some hf
          simpa using this
        have : ¬ p.1 = today := by rw [hp]; exact hd
        simp [Option.or, this]
      | none => rfl

theorem increment_daily_stats_eq (s : Storage) (today : String) :
    (increment_today_apply_count s today).2.daily_stats
      = (if s.daily_stats.any (fun p => p.1 == today) then s.daily_stats
         else s.daily_stats ++ [(today, 0)]).map
          (fun p => if p.1 = today then (p.1, p.2 + 1) else p) := rfl

theorem get_today_after_increment (s : Storage) (today : String) :
    get_today_apply_count (increment_today_apply_count s today).2 today
      = get_today_apply_count s today + 1 := by
  unfold get_today_apply_count
  rw [increment_daily_stats_eq, daily_stats_find?_after, if_pos rfl]
  cases hf : s.daily_stats.find? (fun p => p.1 == today) <;> rfl

/-- C7: `get_today_apply_count` is 0 on a date with no stored counter;
`increment_today_apply_count` on an unseen date initializes it to 0 and
increments to 1, always returns the post-increment value, and never
decrements or touches any other date's counter. -/
theorem daily_count_spec (s : Storage) (today : String) :
    (today ∉ s.daily_stats.map Prod.fst → get_today_apply_count s today = 0) ∧
    (increment_today_apply_count s today).1
      = get_today_apply_count s today + 1 ∧
    get_today_apply_count (increment_today_apply_count s today).2 today
      = get_today_apply_count s today + 1 ∧
    (today ∉ s.daily_stats.map Prod.fst →
      (increment_today_apply_count s today).1 = 1) ∧
    (∀ d, d ≠ today →
      get_today_apply_count (increment_today_apply_count s today).2 d
        = get_today_apply_count s d) := by
  have hzero : today ∉ s.daily_stats.map Prod.fst →
      get_today_apply_count s today = 0 := by
    intro h
    unfold get_today_apply_count
    rw [List.find?_eq_none.mpr]
    intro p hp
    simp only [beq_iff_eq]
    intro hpe
    exact h (hpe ▸ List.mem_map_of_mem Prod.fst hp)
  have hget := get_today_after_increment s today
  have hfst : (increment_today_apply_count s today).1
      = get_today_apply_count (increment_today_apply_count s today).2 today := rfl
  refine ⟨hzero, hfst.trans hget, hget, ?_, ?_⟩
  · intro h
    rw [hfst, hget, hzero h]
  · intro d hd
    unfold get_today_apply_count
    rw [increment_daily_stats_eq, daily_stats_find?_after, if_neg hd]

/-- Witness for C7: on a fresh store the counter for an unseen date reads 0
and a first increment returns 1. -/
theorem daily_count_spec_witness :
    get_today_apply_count emptyStore "2026-10-12" = 0 ∧
    (increment_today_apply_count emptyStore "2026-10-12").1 = 1 ∧
    get_today_apply_count
        (increment_today_apply_count emptyStore "2026-10-12").2 "2026-10-11"
      = get_today_apply_count emptyStore "2026-10-11" := by
  refine ⟨(daily_count_spec emptyStore "2026-10-12").1 (by decide),
    (daily_count_spec emptyStore "2026-10-12").2.2.2.1 (by decide),
    (daily_count_spec emptyStore "2026-10-12").2.2.2.2 "2026-10-11" (by decide)⟩

/-! ## Applied-jobs store lemmas -/

theorem keys_dictSet {α : Type} (l : List (String × α)) (k : String) (v : α) :
    (dictSet l k v).map Prod.fst
      = if k ∈ l.map Prod.fst then l.map Prod.fst else l.map Prod.fst ++ [k] := by
  unfold dictSet
  by_cases h : l.any (fun p => p.1 == k) = true
  · rw [if_pos h, if_pos]
    · rw [List.map_map]
      apply List.map_congr_left
      intro p hp
      by_cases he : p.1 = k <;> simp [he, Function.comp]
    · rcases List.any_eq_true.mp h with ⟨p, hp, hpk⟩
      rw [beq_iff_eq] at hpk
      exact hpk ▸ List.mem_map_of_mem Prod.fst hp
  · rw [if_neg h, if_neg]
    · rw [List.map_append]
      rfl
    · intro hk
      rcases List.mem_map.mp hk with ⟨p, hp, hpe⟩
      exact h (List.any_eq_true.mpr ⟨p, hp, by rw [beq_iff_eq]; exact hpe⟩)

theorem appliedKeys_add (s : Storage) (id : String) (info : JobInfo) :
    appliedKeys (add_applied_job s id info)
      = if id ∈ appliedKeys s then appliedKeys s else appliedKeys s ++ [id] :=
  keys_dictSet s.applied_jobs id ⟨info, "applied"⟩

theorem mem_appliedKeys_add (s : Storage) (id : String) (info : JobInfo)
    (x : String) :
    x ∈ appliedKeys (add_applied_job s id info) ↔ x ∈ appliedKeys s ∨ x = id := by
  rw [appliedKeys_add]
  by_cases hm : id ∈ appliedKeys s
  · rw [if_pos hm]
    constructor
    · exact Or.inl
    · rintro (hx | rfl)
      · exact hx
      · exact hm
  · rw [if_neg hm]
    simp

theorem countKey_add (s : Storage) (id : String) (info : JobInfo) :
    countKey (add_applied_job s id info) id
      = if id ∈ appliedKeys s then countKey s id else countKey s id + 1 := by
  unfold countKey
  rw [appliedKeys_add]
  by_cases hm : id ∈ appliedKeys s
  · rw [if_pos hm, if_pos hm]
  · rw [if_neg hm, if_neg hm, List.count_append]
    simp

theorem nodup_appliedKeys_add (s : Storage) (id : String) (info : JobInfo)
    (h : (appliedKeys s).Nodup) :
    (appliedKeys (add_applied_job s id info)).Nodup := by
  rw [appliedKeys_add]
  by_cases hm : id ∈ appliedKeys s
  · rw [if_pos hm]
    exact h
  · rw [if_neg hm]
    rw [List.nodup_append]
    refine ⟨h, List.nodup_singleton id, ?_⟩
    intro x hx hx2
    rw [List.mem_singleton] at hx2
    exact hm (hx2 ▸ hx)

theorem mem_setAdd (l : List String) (a x : String) :
    x ∈ setAdd l a ↔ x ∈ l ∨ x = a := by
  unfold setAdd
  by_cases h : l.contains a = true
  · rw [if_pos h]
    constructor
    · exact Or.inl
    · rintro (hx | rfl)
      · exact hx
      · simpa using h
  · rw [if_neg h]
    simp

theorem is_job_applied_fst (s : Storage) (id : String) (h : AppliedCacheOK s) :
    (is_job_applied s id).1 = (appliedKeys s).contains id := by
  unfold is_job_applied load_applied_job_ids
  cases hc : s.applied_ids_cache with
  | some ids =>
    simp only
    exact h ids hc id
  | none => simp only

theorem is_job_applied_snd_keys (s : Storage) (id : String) :
    appliedKeys (is_job_applied s id).2 = appliedKeys s := by
  unfold is_job_applied load_applied_job_ids
  cases hc : s.applied_ids_cache <;> rfl

theorem is_job_applied_snd_cacheOK (s : Storage) (id : String)
    (h : AppliedCacheOK s) : AppliedCacheOK (is_job_applied s id).2 := by
  unfold is_job_applied load_applied_job_ids
  cases hc : s.applied_ids_cache with
  | some ids =>
    simp only
    exact h
  | none =>
    simp only
    intro ids2 hc2 x
    injection hc2 with h2
    rw [← h2]
    rfl

theorem appliedCacheOK_add (s : Storage) (id : String) (info : JobInfo)
    (h : AppliedCacheOK s) : AppliedCacheOK (add_applied_job s id info) := by
  intro ids hc x
  have hcache : (add_applied_job s id info).applied_ids_cache
      = s.applied_ids_cache.map (fun l => setAdd l id) := rfl
  cases hc0 : s.applied_ids_cache with
  | none =>
    rw [hcache, hc0] at hc
    cases hc
  | some ids0 =>
    rw [hcache, hc0] at hc
    injection hc with h2
    subst h2
    have h0 := h ids0 hc0 x
    have hiff : x ∈ setAdd ids0 id ↔ x ∈ appliedKeys (add_applied_job s id info) := by
      rw [mem_setAdd, mem_appliedKeys_add]
      have : x ∈ ids0 ↔ x ∈ appliedKeys s := by
        constructor <;> intro hx
        · have : (appliedKeys s).contains x = true := by
            rw [← h0]; simpa using hx
          simpa using this
        · have : ids0.contains x = true := by
            rw [h0]; simpa using hx
          simpa using this
      rw [this]
    by_cases hx : x ∈ setAdd ids0 id
    · rw [(by simpa using hx : (setAdd ids0 id).contains x = true),
        (by simpa using hiff.mp hx :
          (appliedKeys (add_applied_job s id info)).contains x = true)]
    · rw [(by simpa using hx : (setAdd ids0 id).contains x = false),
        (by simpa using fun hh => hx (hiff.mpr hh) :
          (appliedKeys (add_applied_job s id info)).contains x = false)]

/-- C4: an id is not applied before any `add_applied_job` for it and is
applied after one; adding the same id twice leaves exactly one entry in the
applied-jobs mapping; and the in-memory id cache stays in agreement with
the durable state across `is_job_applied` and `add_applied_job`. -/
theorem applied_record_spec (s : Storage) (id : String) (info info2 : JobInfo)
    (hca : AppliedCacheOK s) (hnd : (appliedKeys s).Nodup) :
    (id ∉ appliedKeys s → (is_job_applied s id).1 = false) ∧
    (is_job_applied (add_applied_job s id info) id).1 = true ∧
    countKey (add_applied_job (add_applied_job s id info) id info2) id = 1 ∧
    AppliedCacheOK (is_job_applied s id).2 ∧
    AppliedCacheOK (add_applied_job s id info) ∧
    (appliedKeys (add_applied_job s id info)).Nodup := by
  refine ⟨?_, ?_, ?_, is_job_applied_snd_cacheOK s id hca,
    appliedCacheOK_add s id info hca, nodup_appliedKeys_add s id info hnd⟩
  · intro hm
    rw [is_job_applied_fst s id hca]
    simpa using hm
  · rw [is_job_applied_fst _ id (appliedCacheOK_add s id info hca)]
    have : id ∈ appliedKeys (add_applied_job s id info) :=
      (mem_appliedKeys_add s id info id).mpr (Or.inr rfl)
    simpa using this
  · rw [countKey_add, if_pos ((mem_appliedKeys_add s id info id).mpr (Or.inr rfl)),
      countKey_add]
    by_cases hm : id ∈ appliedKeys s
    · rw [if_pos hm]
      unfold countKey
      have hle := List.nodup_iff_count_le_one.mp hnd id
      have hge := List.count_pos_iff.mpr hm
      omega
    · rw [if_neg hm]
      unfold countKey
      rw [List.count_eq_zero_of_not_mem hm]

/-- Witness for C4 on a fresh store: "id1" unapplied, applied after one add,
and a double add leaves a single entry. -/
theorem applied_record_spec_witness :
    (is_job_applied emptyStore "id1").1 = false ∧
    (is_job_applied (add_applied_job emptyStore "id1" (jobInfoOf sampleJob))
        "id1").1 = true ∧
    countKey (add_applied_job
        (add_applied_job emptyStore "id1" (jobInfoOf sampleJob))
        "id1" (jobInfoOf sampleJob)) "id1" = 1 := by
  have h := applied_record_spec emptyStore "id1" (jobInfoOf sampleJob)
    (jobInfoOf sampleJob) (by intro ids h; cases h) (by decide)
  exact ⟨h.1 (by decide), h.2.1, h.2.2.1⟩

/-! ## Filter lemmas -/

theorem is_company_blacklisted_eq (s : Storage) (c : String)
    (h : BlacklistCacheOK s) :
    is_company_blacklisted s c = s.blacklist_companies.contains c := by
  unfold is_company_blacklisted blacklistSets
  cases hb : s.blacklist_cache with
  | some bl =>
    simp only
    exact h bl hb c
  | none => simp only

/-- C3: `_should_apply` returns true iff every clause admits — not yet
applied, company not in the persistent blacklist, no configured blacklist
keyword is a substring of the company name, company not in the configured
blacklist list, the salary clause admits, the lowered title+description
contains every must-include keyword and none of the must-exclude keywords;
the definition evaluates them as a short-circuiting chain in that order. -/
theorem should_apply_spec (cfg : FilterConfig) (s : Storage) (job : Job)
    (h1 : AppliedCacheOK s) (h2 : BlacklistCacheOK s) :
    should_apply cfg s job = true ↔
      job.job_id ∉ appliedKeys s ∧
      job.company ∉ s.blacklist_companies ∧
      (∀ kw ∈ cfg.company_keyword_blacklist.getD [],
        hasSubstr kw.data job.company.data = false) ∧
      job.company ∉ cfg.company_blacklist.getD [] ∧
      check_salary_range cfg job = true ∧
      (∀ kw ∈ cfg.must_include.getD [],
        hasSubstr (lowerChars kw.data)
          (lowerChars ((job.job_name ++ " " ++ job.description).data)) = true) ∧
      (∀ kw ∈ cfg.must_exclude.getD [],
        hasSubstr (lowerChars kw.data)
          (lowerChars ((job.job_name ++ " " ++ job.description).data)) = false) := by
  unfold should_apply
  rw [is_job_applied_fst s job.job_id h1,
    is_company_blacklisted_eq s job.company h2]
  split_ifs with ha hb hc hd he <;> simp_all

/-- Witness for C3: on a fresh store with an empty filter configuration the
sample posting is admitted. -/
theorem should_apply_spec_witness :
    should_apply {} emptyStore sampleJob = true := by
  have h := should_apply_spec {} emptyStore sampleJob
    (by intro ids hi; cases hi) (by intro bl hb; cases hb)
  exact h.mpr (by decide)

/-! ## Apply-orchestrator lemmas -/

theorem apply_step_stats (outcome : Job → ApplyOutcome) (today : String)
    (st : Stats) (sto : Storage) (j : Job) :
    (apply_step outcome today (st, sto) j).1.success
        + (apply_step outcome today (st, sto) j).1.failed
      = st.success + st.failed + 1 ∧
    (apply_step outcome today (st, sto) j).1.skipped = st.skipped := by
  cases ho : outcome j <;> simp [apply_step, ho] <;> omega

theorem foldl_apply_step_stats (outcome : Job → ApplyOutcome) (today : String)
    (l : List Job) :
    ∀ st sto,
      (l.foldl (apply_step outcome today) (st, sto)).1.success
          + (l.foldl (apply_step outcome today) (st, sto)).1.failed
        = st.success + st.failed + l.length ∧
      (l.foldl (apply_step outcome today) (st, sto)).1.skipped = st.skipped := by
  induction l with
  | nil =>
    intro st sto
    simp
  | cons j js ih =>
    intro st sto
    rw [List.foldl_cons]
    have hs := apply_step_stats outcome today st sto j
    have hih := ih (apply_step outcome today (st, sto) j).1
      (apply_step outcome today (st, sto) j).2
    rw [show ((apply_step outcome today (st, sto) j).1,
        (apply_step outcome today (st, sto) j).2)
      = apply_step outcome today (st, sto) j from rfl] at hih
    rw [List.length_cons]
    constructor
    · omega
    · rw [hih.2, hs.2]

theorem find?_map_overwrite {α : Type} (l : List (String × α)) (k : String)
    (v : α) (h : l.any (fun p => p.1 == k) = true) :
    (l.map (fun p => if p.1 = k then (k, v) else p)).find? (fun p => p.1 == k)
      = some (k, v) := by
  induction l with
  | nil => simp at h
  | cons p ps ih =>
    rw [List.map_cons]
    by_cases hp : p.1 = k
    · rw [if_pos hp]
      exact List.find?_cons_of_pos _ (by simp)
    · rw [if_neg hp]
      rw [List.find?_cons_of_neg _ (by simpa using hp)]
      have hps : ps.any (fun q => q.1 == k) = true := by
        rcases List.any_eq_true.mp h with ⟨q, hq, hqk⟩
        rcases List.mem_cons.mp hq with rfl | hq2
        · rw [beq_iff_eq] at hqk
          exact absurd hqk hp
        · exact List.any_eq_true.mpr ⟨q, hq2, hqk⟩
      exact ih hps

theorem find?_dictSet {α : Type} (l : List (String × α)) (k : String) (v : α) :
    (dictSet l k v).find? (fun p => p.1 == k) = some (k, v) := by
  unfold dictSet
  by_cases h : l.any (fun p => p.1 == k) = true
  · rw [if_pos h]
    exact find?_map_overwrite l k v h
  · rw [if_neg h, List.find?_append]
    have hl : l.find? (fun p => p.1 == k) = none := by
      rw [List.find?_eq_none]
      intro p hp hpk
      exact h (List.any_eq_true.mpr ⟨p, hp, hpk⟩)
    rw [hl]
    simp [List.find?]

/-- C6: in the per-posting loop, a successful apply bumps the success
counter, persists the record (status "applied") under the posting id and
increments today's counter; a `False` return or an exception bumps the
failed counter and leaves the store exactly as it was; and the fold simply
continues with the rest of the batch. -/
theorem apply_step_spec (outcome : Job → ApplyOutcome) (today : String)
    (st : Stats) (sto : Storage) (job : Job) :
    (outcome job = .success →
      (apply_step outcome today (st, sto) job).1
          = { st with success := st.success + 1 } ∧
      job.job_id ∈ appliedKeys (apply_step outcome today (st, sto) job).2 ∧
      (apply_step outcome today (st, sto) job).2.applied_jobs.find?
          (fun p => p.1 == job.job_id)
        = some (job.job_id, ⟨jobInfoOf job, "applied"⟩) ∧
      get_today_apply_count (apply_step outcome today (st, sto) job).2 today
        = get_today_apply_count sto today + 1) ∧
    (outcome job = .failure →
      apply_step outcome today (st, sto) job
        = ({ st with failed := st.failed + 1 }, sto)) ∧
    (outcome job = .error →
      apply_step outcome today (st, sto) job
        = ({ st with failed := st.failed + 1 }, sto)) ∧
    (∀ (rest : List Job) (init : Stats × Storage),
      (job :: rest).foldl (apply_step outcome today) init
        = rest.foldl (apply_step outcome today)
            (apply_step outcome today init job)) := by
  refine ⟨?_, ?_, ?_, ?_⟩
  · intro ho
    have hstep : apply_step outcome today (st, sto) job
        = ({ st with success := st.success + 1 },
           (increment_today_apply_count
             (add_applied_job sto job.job_id (jobInfoOf job)) today).2) := by
      unfold apply_step
      rw [ho]
    rw [hstep]
    refine ⟨rfl, ?_, ?_, ?_⟩
    · have hkeys : appliedKeys (increment_today_apply_count
          (add_applied_job sto job.job_id (jobInfoOf job)) today).2
          = appliedKeys (add_applied_job sto job.job_id (jobInfoOf job)) := rfl
      rw [hkeys, mem_appliedKeys_add]
      exact Or.inr rfl
    · have hjobs : (increment_today_apply_count
          (add_applied_job sto job.job_id (jobInfoOf job)) today).2.applied_jobs
          = dictSet sto.applied_jobs job.job_id ⟨jobInfoOf job, "applied"⟩ := rfl
      rw [hjobs]
      exact find?_dictSet sto.applied_jobs job.job_id ⟨jobInfoOf job, "applied"⟩
    · have hstats : get_today_apply_count
          (add_applied_job sto job.job_id (jobInfoOf job)) today
          = get_today_apply_count sto today := rfl
      rw [get_today_after_increment, hstats]
  · intro ho
    unfold apply_step
    rw [ho]
  · intro ho
    unfold apply_step
    rw [ho]
  · intro rest init
    rw [List.foldl_cons]

/-- Witness for C6: from a fresh store, a successful outcome yields stats
(1,0,0) with the posting recorded, a failing outcome yields (0,1,0) with
the store untouched. -/
theorem apply_step_spec_witness :
    (apply_step (fun _ => ApplyOutcome.success) "2026-01-01"
        (⟨0, 0, 0⟩, emptyStore) sampleJob).1 = ⟨1, 0, 0⟩ ∧
    apply_step (fun _ => ApplyOutcome.failure) "2026-01-01"
        (⟨0, 0, 0⟩, emptyStore) sampleJob = (⟨0, 1, 0⟩, emptyStore) := by
  have h1 := apply_step_spec (fun _ => ApplyOutcome.success) "2026-01-01"
    ⟨0, 0, 0⟩ emptyStore sampleJob
  have h2 := apply_step_spec (fun _ => ApplyOutcome.failure) "2026-01-01"
    ⟨0, 0, 0⟩ emptyStore sampleJob
  exact ⟨(h1.1 rfl).1, h2.2.1 rfl⟩

/-- C1: when today's stored count has reached the daily limit (default 50),
`apply_jobs` returns all-zero stats with the store untouched (independently
of any per-posting outcome); otherwise it processes exactly the first
`min(batch_limit, daily_limit - today_count)` postings — the run equals the
run on that slice alone, every sliced posting is counted as success or
failed, and `skipped` stays 0. -/
theorem apply_jobs_quota (outcome : Job → ApplyOutcome) (cfg : ApplyConfig)
    (today : String) (s : Storage) (jobs : List Job) :
    (cfg.daily_limit.getD 50 ≤ get_today_apply_count s today →
      apply_jobs outcome cfg today s jobs = (⟨0, 0, 0⟩, s)) ∧
    (get_today_apply_count s today < cfg.daily_limit.getD 50 →
      apply_jobs outcome cfg today s jobs
          = apply_jobs outcome cfg today s
              (jobs.take (min (cfg.batch_limit.getD 20)
                (cfg.daily_limit.getD 50 - get_today_apply_count s today))) ∧
      (apply_jobs outcome cfg today s jobs).1.success
          + (apply_jobs outcome cfg today s jobs).1.failed
        = (jobs.take (min (cfg.batch_limit.getD 20)
            (cfg.daily_limit.getD 50 - get_today_apply_count s today))).length ∧
      (apply_jobs outcome cfg today s jobs).1.skipped = 0) := by
  constructor
  · intro h
    unfold apply_jobs
    rw [if_pos h]
  · intro h
    have hne : ¬ (cfg.daily_limit.getD 50 ≤ get_today_apply_count s today) := by
      omega
    have hrun : apply_jobs outcome cfg today s jobs
        = (jobs.take (min (cfg.batch_limit.getD 20)
            (cfg.daily_limit.getD 50 - get_today_apply_count s today))).foldl
            (apply_step outcome today) (⟨0, 0, 0⟩, s) := by
      unfold apply_jobs
      rw [if_neg hne]
    have hrun2 : apply_jobs outcome cfg today s
        (jobs.take (min (cfg.batch_limit.getD 20)
          (cfg.daily_limit.getD 50 - get_today_apply_count s today)))
        = ((jobs.take (min (cfg.batch_limit.getD 20)
            (cfg.daily_limit.getD 50 - get_today_apply_count s today))).take
            (min (cfg.batch_limit.getD 20)
              (cfg.daily_limit.getD 50 - get_today_apply_count s today))).foldl
            (apply_step outcome today) (⟨0, 0, 0⟩, s) := by
      unfold apply_jobs
      rw [if_neg hne]
    obtain ⟨hsum, hskip⟩ := foldl_apply_step_stats outcome today
      (jobs.take (min (cfg.batch_limit.getD 20)
        (cfg.daily_limit.getD 50 - get_today_apply_count s today)))
      ⟨0, 0, 0⟩ s
    dsimp only at hsum hskip
    refine ⟨?_, ?_, ?_⟩
    · rw [hrun, hrun2, List.take_take, min_self]
    · rw [hrun]
      omega
    · rw [hrun]
      exact hskip

/-- Witness for C1: at the quota the run is a no-op returning zero stats;
below it the single posting is attempted and counted. -/
theorem apply_jobs_quota_witness :
    apply_jobs (fun _ => ApplyOutcome.success) {} "2026-01-01" quotaStore
        [sampleJob] = (⟨0, 0, 0⟩, quotaStore) ∧
    (apply_jobs (fun _ => ApplyOutcome.success) {} "2026-01-01" emptyStore
          [sampleJob]).1.success
        + (apply_jobs (fun _ => ApplyOutcome.success) {} "2026-01-01" emptyStore
          [sampleJob]).1.failed = 1 := by
  constructor
  · exact (apply_jobs_quota (fun _ => ApplyOutcome.success) {} "2026-01-01"
      quotaStore [sampleJob]).1 (by decide)
  · have h := (apply_jobs_quota (fun _ => ApplyOutcome.success) {} "2026-01-01"
      emptyStore [sampleJob]).2 (by decide)
    simpa using h.2.1

theorem trace_pairs_count (l : List Job) :
    ((l.map (fun job => [ApplyEvent.attempt job.job_id,
        ApplyEvent.delay])).flatten).count ApplyEvent.delay = l.length := by
  induction l with
  | nil => rfl
  | cons j js ih =>
    rw [List.map_cons, List.flatten_cons, List.count_append, ih]
    have h1 : (ApplyEvent.attempt j.job_id == ApplyEvent.delay) = false := rfl
    have h2 : (ApplyEvent.delay == ApplyEvent.delay) = true := rfl
    rw [List.count_cons, List.count_cons, List.count_nil, h1, h2]
    simp [Nat.add_comm]

theorem trace_pairs_alt (l : List Job) :
    ∀ i, i < ((l.map (fun job => [ApplyEvent.attempt job.job_id,
        ApplyEvent.delay])).flatten).length →
      (i % 2 = 0 → isAttempt (((l.map (fun job => [ApplyEvent.attempt job.job_id,
          ApplyEvent.delay])).flatten).getD i ApplyEvent.delay) = true) ∧
      (i % 2 = 1 → ((l.map (fun job => [ApplyEvent.attempt job.job_id,
          ApplyEvent.delay])).flatten).getD i ApplyEvent.delay
        = ApplyEvent.delay) := by
  induction l with
  | nil =>
    intro i hi
    simp at hi
  | cons j js ih =>
    intro i hi
    match i with
    | 0 => exact ⟨fun _ => rfl, fun h => absurd h (by decide)⟩
    | 1 => exact ⟨fun h => absurd h (by decide), fun _ => rfl⟩
    | (i + 2) =>
      have hi2 : i < ((js.map (fun job => [ApplyEvent.attempt job.job_id,
          ApplyEvent.delay])).flatten).length := by
        rw [List.map_cons, List.flatten_cons, List.length_append] at hi
        simp at hi ⊢
        omega
      have hih := ih i hi2
      have hgetD : ((( (j :: js).map (fun job => [ApplyEvent.attempt job.job_id,
          ApplyEvent.delay])).flatten)).getD (i + 2) ApplyEvent.delay
          = ((js.map (fun job => [ApplyEvent.attempt job.job_id,
            ApplyEvent.delay])).flatten).getD i ApplyEvent.delay := rfl
      have hmod : (i + 2) % 2 = i % 2 := Nat.add_mod_right i 2
      rw [hgetD, hmod]
      exact hih

/-- C5 (amended): the randomized pacing sleep occurs after every attempted
posting, including the last one of the batch: the event trace alternates
attempts (even positions) and delays (odd positions), and the number of
delays equals the number of attempted postings (the success + failed total
of the same run). -/
theorem apply_jobs_pacing (outcome : Job → ApplyOutcome) (cfg : ApplyConfig)
    (today : String) (s : Storage) (jobs : List Job) :
    (apply_jobs_trace cfg today s jobs).count ApplyEvent.delay
        = (apply_jobs outcome cfg today s jobs).1.success
          + (apply_jobs outcome cfg today s jobs).1.failed ∧
    (∀ i, i < (apply_jobs_trace cfg today s jobs).length →
      (i % 2 = 0 → isAttempt ((apply_jobs_trace cfg today s jobs).getD i
          ApplyEvent.delay) = true) ∧
      (i % 2 = 1 → (apply_jobs_trace cfg today s jobs).getD i ApplyEvent.delay
          = ApplyEvent.delay)) := by
  by_cases hq : cfg.daily_limit.getD 50 ≤ get_today_apply_count s today
  · have htr : apply_jobs_trace cfg today s jobs = [] := by
      unfold apply_jobs_trace
      rw [if_pos hq]
    have hrun : apply_jobs outcome cfg today s jobs = (⟨0, 0, 0⟩, s) := by
      unfold apply_jobs
      rw [if_pos hq]
    rw [htr, hrun]
    refine ⟨rfl, ?_⟩
    intro i hi
    simp at hi
  · have htr : apply_jobs_trace cfg today s jobs
        = ((jobs.take (min (cfg.batch_limit.getD 20)
            (cfg.daily_limit.getD 50 - get_today_apply_count s today))).map
            (fun job => [ApplyEvent.attempt job.job_id,
              ApplyEvent.delay])).flatten := by
      unfold apply_jobs_trace
      rw [if_neg hq]
    have hrun : apply_jobs outcome cfg today s jobs
        = (jobs.take (min (cfg.batch_limit.getD 20)
            (cfg.daily_limit.getD 50 - get_today_apply_count s today))).foldl
            (apply_step outcome today) (⟨0, 0, 0⟩, s) := by
      unfold apply_jobs
      rw [if_neg hq]
    obtain ⟨hsum, hskip⟩ := foldl_apply_step_stats outcome today
      (jobs.take (min (cfg.batch_limit.getD 20)
        (cfg.daily_limit.getD 50 - get_today_apply_count s today)))
      ⟨0, 0, 0⟩ s
    dsimp only at hsum hskip
    rw [htr, hrun]
    refine ⟨?_, trace_pairs_alt _⟩
    rw [trace_pairs_count]
    omega

/-- Witness for C5's amended theorem at one attempted posting: one delay is
emitted and the odd position holds it. -/
theorem apply_jobs_pacing_witness :
    (apply_jobs_trace {} "2026-01-01" emptyStore [sampleJob]).count
        ApplyEvent.delay
      = (apply_jobs (fun _ => ApplyOutcome.success) {} "2026-01-01" emptyStore
            [sampleJob]).1.success
        + (apply_jobs (fun _ => ApplyOutcome.success) {} "2026-01-01" emptyStore
            [sampleJob]).1.failed ∧
    (apply_jobs_trace {} "2026-01-01" emptyStore [sampleJob]).getD 1
        ApplyEvent.delay = ApplyEvent.delay := by
  have h := apply_jobs_pacing (fun _ => ApplyOutcome.success) {} "2026-01-01"
    emptyStore [sampleJob]
  exact ⟨h.1, (h.2 1 (by decide)).2 (by decide)⟩

/-- C5 counterexample: with one attempted posting the trace is
attempt-then-delay — the pacing sleep does follow the final attempted
posting, contradicting "no pacing sleep follows the final attempted
posting". -/
theorem apply_jobs_trace_last_delay :
    apply_jobs_trace {} "2026-01-01" emptyStore [sampleJob]
      = [ApplyEvent.attempt "id1", ApplyEvent.delay] ∧
    (apply_jobs_trace {} "2026-01-01" emptyStore [sampleJob]).getLast?
      = some ApplyEvent.delay :=
  ⟨by decide, by decide⟩

/-! ## Priority-sort lemmas -/

theorem insertDescBy_all_le (f : Job → Nat) (x : Job) (l : List Job)
    (h : ∀ y ∈ l, f y ≤ f x) : insertDescBy f x l = x :: l := by
  cases l with
  | nil => rfl
  | cons y ys =>
    unfold insertDescBy
    rw [if_pos (h y (List.mem_cons_self y ys))]

theorem insertDescBy_append_lt (f : Job → Nat) (x : Job) (l1 l2 : List Job)
    (h : ∀ y ∈ l1, f x < f y) :
    insertDescBy f x (l1 ++ l2) = l1 ++ insertDescBy f x l2 := by
  induction l1 with
  | nil => rfl
  | cons y ys ih =>
    rw [List.cons_append, List.cons_append, insertDescBy]
    have hy := h y (List.mem_cons_self y ys)
    rw [if_neg (by omega)]
    rw [ih (fun z hz => h z (List.mem_cons_of_mem y hz))]

theorem insertDescBy_perm (f : Job → Nat) (x : Job) (l : List Job) :
    (insertDescBy f x l).Perm (x :: l) := by
  induction l with
  | nil => exact List.Perm.refl _
  | cons y ys ih =>
    unfold insertDescBy
    by_cases h : f y ≤ f x
    · rw [if_pos h]
    · rw [if_neg h]
      exact (List.Perm.cons y ih).trans (List.Perm.swap x y ys)

theorem sortDescBy_perm (f : Job → Nat) (l : List Job) :
    (sortDescBy f l).Perm l := by
  induction l with
  | nil => exact List.Perm.refl _
  | cons x xs ih =>
    unfold sortDescBy
    exact (insertDescBy_perm f x (sortDescBy f xs)).trans (List.Perm.cons x ih)

theorem priority_score_two_valued (s : Storage) (j : Job) :
    priority_score s j = 10 ∨ priority_score s j = 0 := by
  unfold priority_score
  by_cases h : (get_hr_records s).contains j.hr_name = true
  · rw [if_pos h]
    exact Or.inr rfl
  · rw [if_neg h]
    exact Or.inl rfl

theorem sortDescBy_priority_eq (s : Storage) (l : List Job) :
    sortDescBy (priority_score s) l
      = l.filter (fun j => priority_score s j == 10)
        ++ l.filter (fun j => priority_score s j == 0) := by
  induction l with
  | nil => rfl
  | cons x xs ih =>
    have hstep : sortDescBy (priority_score s) (x :: xs)
        = insertDescBy (priority_score s) x (sortDescBy (priority_score s) xs) :=
      rfl
    rw [hstep, ih]
    have hmemhi : ∀ y ∈ xs.filter (fun j => priority_score s j == 10),
        priority_score s y = 10 := by
      intro y hy
      have := (List.mem_filter.mp hy).2
      simpa using this
    have hmemlo : ∀ y ∈ xs.filter (fun j => priority_score s j == 0),
        priority_score s y = 0 := by
      intro y hy
      have := (List.mem_filter.mp hy).2
      simpa using this
    rcases priority_score_two_valued s x with hx | hx
    · rw [insertDescBy_all_le]
      · rw [List.filter_cons, List.filter_cons]
        simp only [hx]
        norm_num
      · intro y hy
        rcases List.mem_append.mp hy with h | h
        · rw [hmemhi y h, hx]
        · rw [hmemlo y h, hx]
          omega
    · rw [insertDescBy_append_lt _ _ _ _
        (fun y hy => by rw [hmemhi y hy, hx]; omega)]
      rw [insertDescBy_all_le _ _ _
        (fun y hy => by rw [hmemlo y hy, hx])]
      rw [List.filter_cons, List.filter_cons]
      simp only [hx]
      norm_num

/-- C9: `sort_by_priority` is the stable descending sort by the priority
score (uncontacted-HR postings score 10, contacted ones 0, a +10 gap): the
output is exactly the score-10 postings in input order followed by the
score-0 postings in input order, and is a permutation of the input. -/
theorem sort_by_priority_spec (s : Storage) (jobs : List Job) :
    sort_by_priority s jobs
        = jobs.filter (fun j => priority_score s j == 10)
          ++ jobs.filter (fun j => priority_score s j == 0) ∧
    (sort_by_priority s jobs).Perm jobs ∧
    (∀ j j2 : Job, j.hr_name ∉ get_hr_records s → j2.hr_name ∈ get_hr_records s →
      priority_score s j = priority_score s j2 + 10) := by
  refine ⟨sortDescBy_priority_eq s jobs, sortDescBy_perm _ jobs, ?_⟩
  intro j j2 h1 h2
  unfold priority_score
  rw [if_neg (by simpa using h1), if_pos (by simpa using h2)]

/-- Witness for C9: with "hr1" contacted, the uncontacted posting moves
ahead of the contacted one and scores 10 more. -/
theorem sort_by_priority_spec_witness :
    sort_by_priority hrStore [sampleJob, sampleJob2] = [sampleJob2, sampleJob] ∧
    priority_score hrStore sampleJob2 = priority_score hrStore sampleJob + 10 := by
  have h := sort_by_priority_spec hrStore [sampleJob, sampleJob2]
  exact ⟨h.1.trans (by decide), h.2.2 sampleJob2 sampleJob (by decide) (by decide)⟩

/-! ## Cross-keyword dedup lemmas -/

theorem collectJobs_invariant (jobs : List Job) :
    ∀ (acc : List Job) (seen : List String) (flat : List Job),
      (∀ x, x ∈ seen ↔ x ∈ acc.map Job.job_id) →
      (acc.map Job.job_id).Nodup →
      (∀ id, acc.find? (fun q => q.job_id == id)
          = flat.find? (fun q => q.job_id == id)) →
      (∀ q ∈ acc, q ∈ flat) →
      (∀ x, x ∈ (collectJobs jobs (acc, seen)).2 ↔
          x ∈ (collectJobs jobs (acc, seen)).1.map Job.job_id) ∧
      ((collectJobs jobs (acc, seen)).1.map Job.job_id).Nodup ∧
      (∀ id, (collectJobs jobs (acc, seen)).1.find? (fun q => q.job_id == id)
          = (flat ++ jobs).find? (fun q => q.job_id == id)) ∧
      (∀ q ∈ (collectJobs jobs (acc, seen)).1, q ∈ flat ++ jobs) := by
  induction jobs with
  | nil =>
    intro acc seen flat hseen hnd hfind hmem
    refine ⟨hseen, hnd, ?_, ?_⟩
    · intro id
      rw [List.append_nil]
      exact hfind id
    · intro q hq
      rw [List.append_nil]
      exact hmem q hq
  | cons j js ih =>
    intro acc seen flat hseen hnd hfind hmem
    by_cases hj : seen.contains j.job_id = true
    · have hcj : collectJobs (j :: js) (acc, seen) = collectJobs js (acc, seen) := by
        rw [collectJobs, if_pos hj]
      rw [hcj]
      have hfind2 : ∀ id, acc.find? (fun q => q.job_id == id)
          = (flat ++ [j]).find? (fun q => q.job_id == id) := by
        intro id
        rw [List.find?_append, ← hfind id]
        cases hf : acc.find? (fun q => q.job_id == id) with
        | some q => rfl
        | none =>
          have hjid : j.job_id ∈ acc.map Job.job_id :=
            (hseen j.job_id).mp (by simpa using hj)
          have hne : (j.job_id == id) = false := by
            rw [beq_eq_false_iff_ne]
            intro he
            rcases List.mem_map.mp (he ▸ hjid) with ⟨q, hq, hqe⟩
            exact List.find?_eq_none.mp hf q hq (by simpa using hqe)
          simp [List.find?, hne]
      have hmem2 : ∀ q ∈ acc, q ∈ flat ++ [j] :=
        fun q hq => List.mem_append_left _ (hmem q hq)
      have hres := ih acc seen (flat ++ [j]) hseen hnd hfind2 hmem2
      rw [List.append_assoc, List.singleton_append] at hres
      exact hres
    · have hcj : collectJobs (j :: js) (acc, seen)
          = collectJobs js (acc ++ [j], seen ++ [j.job_id]) := by
        rw [collectJobs, if_neg hj]
      rw [hcj]
      have hjid : j.job_id ∉ acc.map Job.job_id := by
        intro hm
        exact hj (by simpa using (hseen j.job_id).mpr hm)
      have hseen2 : ∀ x, x ∈ seen ++ [j.job_id] ↔
          x ∈ (acc ++ [j]).map Job.job_id := by
        intro x
        rw [List.map_append]
        simp [hseen x]
      have hnd2 : ((acc ++ [j]).map Job.job_id).Nodup := by
        rw [List.map_append, List.nodup_append]
        refine ⟨hnd, by simp, ?_⟩
        intro x hx hx2
        simp at hx2
        exact hjid (hx2 ▸ hx)
      have hfind2 : ∀ id, (acc ++ [j]).find? (fun q => q.job_id == id)
          = (flat ++ [j]).find? (fun q => q.job_id == id) := by
        intro id
        rw [List.find?_append, List.find?_append, hfind id]
      have hmem2 : ∀ q ∈ acc ++ [j], q ∈ flat ++ [j] := by
        intro q hq
        rcases List.mem_append.mp hq with h | h
        · exact List.mem_append_left _ (hmem q h)
        · exact List.mem_append_right _ h
      have hres := ih (acc ++ [j]) (seen ++ [j.job_id]) (flat ++ [j])
        hseen2 hnd2 hfind2 hmem2
      rw [List.append_assoc, List.singleton_append] at hres
      exact hres

theorem foldl_collectJobs_invariant (searchFn : String → List Job)
    (keywords : List String) :
    ∀ (acc : List Job) (seen : List String) (flat : List Job),
      (∀ x, x ∈ seen ↔ x ∈ acc.map Job.job_id) →
      (acc.map Job.job_id).Nodup →
      (∀ id, acc.find? (fun q => q.job_id == id)
          = flat.find? (fun q => q.job_id == id)) →
      (∀ q ∈ acc, q ∈ flat) →
      (((keywords.foldl (fun st kw => collectJobs (searchFn kw) st)
          (acc, seen)).1.map Job.job_id).Nodup ∧
      (∀ id, (keywords.foldl (fun st kw => collectJobs (searchFn kw) st)
          (acc, seen)).1.find? (fun q => q.job_id == id)
          = (flat ++ (keywords.map searchFn).flatten).find?
              (fun q => q.job_id == id)) ∧
      (∀ q ∈ (keywords.foldl (fun st kw => collectJobs (searchFn kw) st)
          (acc, seen)).1, q ∈ flat ++ (keywords.map searchFn).flatten)) := by
  induction keywords with
  | nil =>
    intro acc seen flat hseen hnd hfind hmem
    refine ⟨hnd, ?_, ?_⟩
    · intro id
      rw [List.map_nil, List.flatten_nil, List.append_nil]
      exact hfind id
    · intro q hq
      rw [List.map_nil, List.flatten_nil, List.append_nil]
      exact hmem q hq
  | cons kw kws ih =>
    intro acc seen flat hseen hnd hfind hmem
    rw [List.foldl_cons]
    obtain ⟨hseen2, hnd2, hfind2, hmem2⟩ :=
      collectJobs_invariant (searchFn kw) acc seen flat hseen hnd hfind hmem
    have hres := ih (collectJobs (searchFn kw) (acc, seen)).1
      (collectJobs (searchFn kw) (acc, seen)).2 (flat ++ searchFn kw)
      hseen2 hnd2 hfind2 hmem2
    rw [show ((collectJobs (searchFn kw) (acc, seen)).1,
        (collectJobs (searchFn kw) (acc, seen)).2)
      = collectJobs (searchFn kw) (acc, seen) from rfl] at hres
    rw [List.map_cons, List.flatten_cons, ← List.append_assoc]
    exact hres

/-- C8: in the list returned by `search_all_keywords` every job id occurs
at most once (the projected id list has no duplicates), and for every id
the posting kept is the first occurrence in keyword-iteration order (its
`find?` agrees with `find?` over the concatenation of all per-keyword
results); every returned posting comes from some keyword search. -/
theorem search_all_keywords_spec (searchFn : String → List Job)
    (keywords : List String) :
    ((search_all_keywords searchFn keywords).map Job.job_id).Nodup ∧
    (∀ id, (search_all_keywords searchFn keywords).find?
        (fun q => q.job_id == id)
        = ((keywords.map searchFn).flatten).find? (fun q => q.job_id == id)) ∧
    (∀ q ∈ search_all_keywords searchFn keywords,
      q ∈ (keywords.map searchFn).flatten) := by
  have hres := foldl_collectJobs_invariant searchFn keywords [] [] []
    (by simp) (by simp) (fun id => rfl) (by simp)
  rw [List.nil_append] at hres
  exact hres

/-- Witness for C8: with both keywords returning the first sample posting,
the aggregated ids are duplicate-free and the posting indeed comes from the
concatenated search results. -/
theorem search_all_keywords_spec_witness :
    ((search_all_keywords searchResults ["A", "B"]).map Job.job_id).Nodup ∧
    sampleJob ∈ (["A", "B"].map searchResults).flatten := by
  have h := search_all_keywords_spec searchResults ["A", "B"]
  exact ⟨h.1, h.2.2 sampleJob (by decide)⟩

/-- C10: rewriting the bonus-month separator `·` into a range dash makes
"30k·14薪" parse as the pair (30,14) — the bonus-month count becomes the
upper bound — so it fails the default admission test (14 < 35), while the
same salary written "30K" parses as (30,30) and is treated differently by
the admission rules (e.g. with `min_salary_max = 30` the latter is admitted
and the former still rejected). -/
theorem parse_salary_bonus_months :
    parse_salary "30k·14薪" = (some 30, some 14) ∧
    check_salary_range {} ⟨"", "", "", "", "30k·14薪", "", ""⟩ = false ∧
    parse_salary "30K" = (some 30, some 30) ∧
    check_salary_range { min_salary_max := some 30 } ⟨"", "", "", "", "30K", "", ""⟩ = true ∧
    check_salary_range { min_salary_max := some 30 } ⟨"", "", "", "", "30k·14薪", "", ""⟩ = false := by
  refine ⟨by decide, by decide, by decide, by decide, by decide⟩

end JobsAuto
